import Mathlib

/-!
# Verification of the AURA RAG engine core

Shallow embedding of the core of the AURA repository:
* `Website/backend/lightrag.py` — graph-based indexing (entity/relationship
  parsing into a NetworkX graph, graph profiling into the vector store,
  query-keyword extraction with JSON fallback);
* `Website/backend/lightrag_local.py` — the persistent chunk store
  (meta rows, embedding matrix, FAISS flat index, BM25 tokens), vector and
  keyword search, hybrid score fusion, bounded context assembly, `aquery`;
* `Website/backend/database_api.py` — the text chunker `_chunk_text`.

Python strings are modelled as Lean `String`/`List Char` (Python indexing and
`len` count code points, as Lean `String.length` does); Python floats are
modelled as `ℚ` (every constant appearing in the scoring code — 0.75, 0.25,
8.0 — is exactly representable); external services (Ollama embeddings and
completions, `json.loads`, the BM25 scoring function of `rank_bm25`) are
passed in as parameters of the embedded functions.
-/

namespace AURA

/-! ## Python string primitives -/

/-- Python `str.strip(chars)` on the left: drop leading characters satisfying `p`. -/
def stripLeftP (p : Char → Bool) (s : List Char) : List Char :=
  s.dropWhile p

/-- Python `str.strip(chars)` on the right: drop trailing characters satisfying `p`. -/
def stripRightP (p : Char → Bool) (s : List Char) : List Char :=
  (s.reverse.dropWhile p).reverse

/-- Python `str.strip(chars)`: drop characters satisfying `p` from both ends. -/
def stripBoth (p : Char → Bool) (s : List Char) : List Char :=
  stripRightP p (stripLeftP p s)

/-- Python `str.strip()` (no argument): strip whitespace from both ends. -/
def pyStrip (s : String) : String :=
  (stripBoth Char.isWhitespace s.toList).asString

/-- Python `str.strip('()')` as used in `_parse_and_insert_graph_data`. -/
def stripParens (s : String) : String :=
  (stripBoth (fun c => c == '(' || c == ')') s.toList).asString

/-- Python `str.strip('\"')` as used on the fields of a parsed record. -/
def stripQuotes (s : String) : String :=
  (stripBoth (fun c => c == '\"') s.toList).asString

/-- Python slicing `s[:n]` on a string (by code points). -/
def pyTake (s : String) (n : Nat) : String :=
  (s.toList.take n).asString

/-- Python `str.split(sep)` for a non-empty `sep`, fuel-indexed (the fuel
`s.length + 1` always suffices since every step consumes at least one
character): split at every non-overlapping occurrence of `sep`, scanning
left to right; `acc` holds the current field reversed. -/
def pySplitGo (sep : List Char) : Nat → List Char → List Char → List (List Char)
  | 0, _, acc => [acc.reverse]
  | _ + 1, [], acc => [acc.reverse]
  | fuel + 1, c :: rest, acc =>
    if sep.isPrefixOf (c :: rest) then
      acc.reverse :: pySplitGo sep fuel ((c :: rest).drop sep.length) []
    else
      pySplitGo sep fuel rest (c :: acc)

/-- Python `s.split(sep)` on strings. -/
def pySplit (sep s : String) : List String :=
  (pySplitGo sep.toList (s.toList.length + 1) s.toList []).map List.asString

/-! ## Graph model (`networkx.Graph` as used by `lightrag.py`)

`nx.Graph` keeps nodes in insertion order, keyed by name, with an attribute
dictionary per node.  Nodes created implicitly by `add_edge` have an *empty*
attribute dictionary — in particular no `description` key — which is what the
`Option` fields below record. -/

/-- Attributes of a graph node.  `add_node(name, type=…, description=…)` sets
both; a node auto-created by `add_edge` has neither. -/
structure NodeData where
  typ : Option String
  description : Option String
deriving Repr, DecidableEq

/-- Attributes of a graph edge; `add_edge` always sets both. -/
structure EdgeData where
  description : String
  keywords : String
deriving Repr, DecidableEq

/-- The NetworkX graph of `LightRAG.graph_db`: insertion-ordered association
list of nodes and list of undirected edges with attributes. -/
structure Graph where
  nodes : List (String × NodeData)
  edges : List (String × String × EdgeData)
deriving Repr, DecidableEq

def Graph.empty : Graph := ⟨[], []⟩

/-- `graph.has_node(name)`. -/
def Graph.hasNode (g : Graph) (name : String) : Bool :=
  g.nodes.any (fun p => p.1 == name)

/-- Whether a stored edge connects `u` and `v` (undirected). -/
def edgeMatches (u v : String) (e : String × String × EdgeData) : Bool :=
  (e.1 == u && e.2.1 == v) || (e.1 == v && e.2.1 == u)

/-- `graph.has_edge(u, v)` on an undirected graph. -/
def Graph.hasEdge (g : Graph) (u v : String) : Bool :=
  g.edges.any (edgeMatches u v)

/-- Attribute dictionary of node `name`, if present. -/
def Graph.findNode (g : Graph) (name : String) : Option NodeData :=
  (g.nodes.find? (fun p => p.1 == name)).map (fun p => p.2)

/-- `graph.add_node(name, type=ty, description=desc)` (name known absent). -/
def Graph.addNodeEntity (g : Graph) (name ty desc : String) : Graph :=
  { g with nodes := g.nodes ++ [(name, ⟨some ty, some desc⟩)] }

/-- NetworkX `add_edge` auto-creates a missing endpoint with empty attributes. -/
def Graph.ensureNode (g : Graph) (name : String) : Graph :=
  if g.hasNode name then g
  else { g with nodes := g.nodes ++ [(name, ⟨none, none⟩)] }

/-- `graph.nodes[name]['description'] += f" {desc}"`.  Raises `KeyError`
(modelled as `Except.error`) when the node is absent or — as happens for a
node auto-created by `add_edge` — has no `description` attribute. -/
def Graph.appendNodeDesc (g : Graph) (name desc : String) : Except String Graph :=
  match g.findNode name with
  | none => .error "KeyError: node"
  | some nd =>
    match nd.description with
    | none => .error "KeyError: description"
    | some _ =>
      .ok { g with nodes := g.nodes.map (fun p =>
              if p.1 == name then
                (p.1, { p.2 with description := p.2.description.map (fun d => d ++ " " ++ desc) })
              else p) }

/-- Lines 81–85 of `lightrag.py`: merge-on-insert for an entity record. -/
def Graph.addOrMergeNode (g : Graph) (name ty desc : String) : Except String Graph :=
  if g.hasNode name then g.appendNodeDesc name desc
  else .ok (g.addNodeEntity name ty desc)

/-- `graph[src][tgt]['description'] += f" {desc}"` on an existing edge. -/
def Graph.updateEdgeDesc (g : Graph) (u v desc : String) : Graph :=
  { g with edges := g.edges.map (fun e =>
      if edgeMatches u v e then
        (e.1, e.2.1, { e.2.2 with description := e.2.2.description ++ " " ++ desc })
      else e) }

/-- `graph.add_edge(u, v, description=desc, keywords=kw)` (edge known absent):
auto-creates missing endpoints, then appends the edge. -/
def Graph.addEdgeNew (g : Graph) (u v desc kw : String) : Graph :=
  let g1 := (g.ensureNode u).ensureNode v
  { g1 with edges := g1.edges ++ [(u, v, ⟨desc, kw⟩)] }

/-- Lines 89–92 of `lightrag.py`: merge-on-insert for a relationship record. -/
def Graph.addOrMergeEdge (g : Graph) (u v desc kw : String) : Graph :=
  if g.hasEdge u v then g.updateEdgeDesc u v desc
  else g.addEdgeNew u v desc kw

/-! ## `LightRAG._parse_and_insert_graph_data` -/

/-- `item.strip().strip('()')` followed by `split('"|"')` and per-part
`strip('"')` — the fragment tokenizer of `_parse_and_insert_graph_data`. -/
def fragmentParts (item : String) : List String :=
  (pySplit "\"|\"" (stripParens (pyStrip item))).map stripQuotes

/-- One iteration of the loop body: an `("entity"|…)` record with exactly 4
fields merges a node, a `("relationship"|…)` record with exactly 5 fields
merges an edge, anything else is skipped. -/
def processFragment (g : Graph) (item : String) : Except String Graph :=
  match fragmentParts item with
  | ["entity", name, ty, desc] => g.addOrMergeNode name ty desc
  | ["relationship", src, tgt, desc, kw] => .ok (g.addOrMergeEdge src tgt desc kw)
  | _ => .ok g

/-- Sequential processing of the fragments; a raised exception aborts. -/
def processFragments (g : Graph) : List String → Except String Graph
  | [] => .ok g
  | item :: rest =>
    match processFragment g item with
    | .ok g1 => processFragments g1 rest
    | .error e => .error e

/-- `LightRAG._parse_and_insert_graph_data(raw)`: split the raw model output
on `"##"` and feed every fragment through the tolerant record parser. -/
def parseAndInsertGraphData (g : Graph) (raw : String) : Except String Graph :=
  processFragments g (pySplit "##" raw)

/-! ## Entity-insertion sequences (claim C1) -/

/-- One `add_or_merge_node` call as fed by the extraction phase. -/
structure EntityIns where
  name : String
  ty : String
  desc : String
deriving Repr, DecidableEq

/-- A sequence of entity insertions into the graph store, left to right. -/
def insertEntities : Graph → List EntityIns → Except String Graph
  | g, [] => .ok g
  | g, e :: rest =>
    match g.addOrMergeNode e.name e.ty e.desc with
    | .ok g1 => insertEntities g1 rest
    | .error s => .error s

/-- The descriptions inserted under `name`, in insertion order. -/
def descsFor (es : List EntityIns) (name : String) : List String :=
  es.filterMap (fun e => if e.name = name then some e.desc else none)

/-- Space-joined, order-preserving concatenation — exactly the shape produced
by `description += f" {desc}"` starting from the first description. -/
def joinSpace : List String → String
  | [] => ""
  | d :: rest => rest.foldl (fun acc x => acc ++ " " ++ x) d

/-- Proof auxiliary: the effect of one `add_or_merge_node` call on the node
list, in the regime (reached from the empty graph by entity insertions
only) where every node has a description. -/
def entityStep (ns : List (String × NodeData)) (e : EntityIns) : List (String × NodeData) :=
  if ns.any (fun p => p.1 == e.name) then
    ns.map (fun p => if p.1 == e.name then
      (p.1, { p.2 with description := p.2.description.map (fun d => d ++ " " ++ e.desc) }) else p)
  else ns ++ [(e.name, ⟨some e.ty, some e.desc⟩)]

/-! ## The persistent chunk store (`lightrag_local.py`) -/

/-- Loop body of `_tokenize`: accumulate the current alnum run (reversed),
flush it on a non-alnum character. -/
def alnumRunsAux : List Char → List Char → List String
  | [], word => if word.isEmpty then [] else [word.reverse.asString]
  | c :: rest, word =>
    if c.isAlphanum then alnumRunsAux rest (c :: word)
    else if word.isEmpty then alnumRunsAux rest []
    else word.reverse.asString :: alnumRunsAux rest []

/-- `_tokenize`: lowercase, then split into maximal alphanumeric runs. -/
def tokenize (s : String) : List String :=
  alnumRunsAux s.toLower.toList []

/-- One row of `meta.json`: `{id, text, meta}`, the metadata being a string
dictionary. -/
structure Row where
  id : String
  text : String
  meta : List (String × String)
deriving Repr, DecidableEq

/-- An embedding vector (Python float components modelled as `ℚ`). -/
abbrev Vec := List ℚ

/-- Default BM25 rebuild cadence `AURA_BM25_REBUILD_EVERY`. -/
def BM25_REBUILD_EVERY : Nat := 50

/-- Default context budget `AURA_MAX_CTX_CHARS`. -/
def MAX_CTX_CHARS : Nat := 6000

/-- The truncation marker appended at line 335 of `lightrag_local.py`. -/
def TRUNC_MARKER : String := "\n\n[...context truncated...]"

/-- In-memory state of `LightRAG` (the local store): metadata rows, the
optional embedding matrix `_emb`, the optional FAISS index (modelled by the
list of vectors it holds, in insertion order), the BM25 token lists, the
BM25 object (modelled by the token corpus it was built from, since it may
lag `_bm25_tokens` between rebuilds) and the insert counter. -/
structure Store where
  rows : List Row
  emb : Option (List Vec)
  index : Option (List Vec)
  bm25Tokens : List (List String)
  bm25 : Option (List (List String))
  insertsSinceBm25 : Nat
deriving Repr, DecidableEq

/-- `_load_store`, parameterized by what the persisted files yield:
`persistedRows` is the parsed `meta.json` (defaulting to `[]`), `loadedEmb`
is `none` when `embeddings.npy` is absent, unreadable or not 2-dimensional,
and otherwise the loaded matrix.  A loaded matrix whose row count differs
from the metadata row count is discarded and the index stays disabled. -/
def loadStore (persistedRows : List Row) (loadedEmb : Option (List Vec)) : Store :=
  let embIx : Option (List Vec) × Option (List Vec) :=
    match loadedEmb with
    | some m => if m.length = persistedRows.length then (some m, some m) else (none, none)
    | none => (none, none)
  let toks := persistedRows.map (fun r => tokenize r.text)
  { rows := persistedRows
    emb := embIx.1
    index := embIx.2
    bm25Tokens := toks
    bm25 := if toks.isEmpty then none else some toks
    insertsSinceBm25 := 0 }

/-- `ainsert(text, meta)`, parameterized by the normalized embedding `emb`
returned by the embedding client and by the millisecond timestamp used in
the generated id.  Note the `self._emb is None` branch: it creates a fresh
one-row matrix regardless of how many metadata rows already exist. -/
def ainsert (s : Store) (nowMs : Nat) (text : String) (meta : List (String × String))
    (emb : Vec) : Store :=
  let _id := "chunk_" ++ toString nowMs ++ "_" ++ toString s.rows.length
  let rows1 := s.rows ++ [⟨_id, text, meta⟩]
  let embIx : Option (List Vec) × Option (List Vec) :=
    match s.emb with
    | none => (some [emb], some [emb])
    | some m => (some (m ++ [emb]), s.index.map (fun ix => ix ++ [emb]))
  let toks1 := s.bm25Tokens ++ [tokenize text]
  let cnt := s.insertsSinceBm25 + 1
  if cnt ≥ BM25_REBUILD_EVERY then
    { rows := rows1, emb := embIx.1, index := embIx.2, bm25Tokens := toks1
      bm25 := if toks1.isEmpty then none else some toks1, insertsSinceBm25 := 0 }
  else
    { rows := rows1, emb := embIx.1, index := embIx.2, bm25Tokens := toks1
      bm25 := s.bm25, insertsSinceBm25 := cnt }

/-- `reset()`: clears rows, embeddings, index and keyword state (file
removal is an external effect). -/
def resetStore (_s : Store) : Store :=
  ⟨[], none, none, [], none, 0⟩

/-- `flush()`: rebuilds BM25 from the current tokens, then persists; the
rows/embedding state is unchanged in memory. -/
def flushStore (s : Store) : Store :=
  { s with bm25 := if s.bm25Tokens.isEmpty then none else some s.bm25Tokens }

/-- The metadata/embedding alignment invariant of §6 of the spec: the
embedding matrix is absent, or has exactly one row per stored chunk. -/
def alignedB (s : Store) : Bool :=
  match s.emb with
  | none => true
  | some m => m.length == s.rows.length

/-! ### Vector search -/

/-- Inner product of two vectors (cosine similarity once both are
normalized, as `_normalize` guarantees for everything stored). -/
def dotQ (a b : Vec) : ℚ :=
  (List.zipWith (· * ·) a b).sum

/-- Comparator for FAISS result ordering: higher score first, ties broken by
smaller (earlier-inserted) index. -/
def ipLE (a b : Nat × ℚ) : Bool :=
  decide (b.2 < a.2) || (decide (a.2 = b.2) && decide (a.1 ≤ b.1))

/-- The strict ordering claimed for vector-search results: strictly
descending score, ties broken by strictly ascending insertion index. -/
def strictDesc (a b : Nat × ℚ) : Prop :=
  b.2 < a.2 ∨ (a.2 = b.2 ∧ a.1 < b.1)

/-- Modelled external call `faiss.IndexFlatIP.search`: score every stored
vector by inner product with the query and return the `k` best
`(index, score)` pairs, ordered by descending score with ties broken by
ascending id (FAISS heaps order results by the pair (distance, id)).
Fewer than `k` stored vectors simply yield a shorter list — the `-1`
padding ids that the real call emits are exactly the ones the caller's
`if i < 0: continue` filter removes. -/
def faissSearchTopK (index : List Vec) (q : Vec) (k : Nat) : List (Nat × ℚ) :=
  (((List.range index.length).map (fun i => (i, dotQ q (index.getD i [])))).mergeSort ipLE).take k

/-- `_search_vector(q_emb, top_k)` for an already-normalized query embedding
(`_normalize` divides by a Euclidean norm and is applied by the caller's
model, since the norm is irrational in general; normalization does not
affect result order). -/
def searchVector (s : Store) (qn : Vec) (topK : Nat) : List (Nat × ℚ) :=
  match s.index, s.emb with
  | some ix, some _ =>
    if s.rows.length = 0 then [] else faissSearchTopK ix qn (max 1 topK)
  | _, _ => []

/-! ### Keyword search -/

/-- Modelled external call `np.argsort(-scores)`: indices of the scores in
descending score order.  (NumPy's default quicksort gives no tie guarantee;
ascending index on ties is one consistent refinement and no claim depends
on it.) -/
def argsortDesc (scores : List ℚ) : List Nat :=
  ((List.range scores.length).map (fun i => (i, scores.getD i 0))).mergeSort ipLE |>.map (fun p => p.1)

/-- `_search_bm25(query, top_k)`, parameterized by the score vector that the
external `BM25Okapi.get_scores` returns for the tokenized query (one score
per stored chunk). -/
def searchBM25 (s : Store) (extScores : List ℚ) (topK : Nat) : List (Nat × ℚ) :=
  if s.rows.length = 0 then []
  else ((argsortDesc extScores).take (max 1 topK)).map (fun i => (i, extScores.getD i 0))

/-! ### Hybrid fusion (`aquery`, lines 296–318) -/

/-- A candidate accumulator entry: chunk index, optional vector score,
optional BM25 score (the two optional keys of the Python per-candidate
dict). -/
abbrev Cand := Nat × Option ℚ × Option ℚ

/-- `candidates.setdefault(idx, {}); candidates[idx]["vec"] = score`. -/
def upsertVec (cs : List Cand) (i : Nat) (sc : ℚ) : List Cand :=
  if cs.any (fun c => c.1 == i) then
    cs.map (fun c => if c.1 == i then (c.1, some sc, c.2.2) else c)
  else cs ++ [(i, some sc, none)]

/-- `candidates.setdefault(idx, {}); candidates[idx]["bm25"] = score`. -/
def upsertBm (cs : List Cand) (i : Nat) (sc : ℚ) : List Cand :=
  if cs.any (fun c => c.1 == i) then
    cs.map (fun c => if c.1 == i then (c.1, c.2.1, some sc) else c)
  else cs ++ [(i, none, some sc)]

/-- The candidate dict after both retrieval passes, in Python dict insertion
order: all vector hits first, then the BM25-only hits. -/
def buildCandidates (vecHits bmHits : List (Nat × ℚ)) : List Cand :=
  bmHits.foldl (fun cs p => upsertBm cs p.1 p.2)
    (vecHits.foldl (fun cs p => upsertVec cs p.1 p.2) [])

/-- The candidate entry created for a pure vector hit. -/
def vecCand (p : Nat × ℚ) : Cand := (p.1, some p.2, none)

/-- The candidate entry created for a BM25-only hit. -/
def bmCand (p : Nat × ℚ) : Cand := (p.1, none, some p.2)

/-- The effect of the BM25 pass on one existing candidate entry: set its
`"bm25"` key when the chunk is also a BM25 hit, else leave it unchanged. -/
def applyBm (bmHits : List (Nat × ℚ)) (c : Cand) : Cand :=
  match bmHits.find? (fun q => q.1 == c.1) with
  | some q => (c.1, c.2.1, some q.2)
  | none => c

/-- `bm_norm = bm / (abs(bm) + 8.0)`. -/
def bmNorm (bm : ℚ) : ℚ := bm / (|bm| + 8)

/-- `total` as computed per candidate (`d.get` defaults to `0.0`). -/
def fusedTotal (mode : String) (c : Option ℚ × Option ℚ) : ℚ :=
  let vec := c.1.getD 0
  let bm := c.2.getD 0
  if mode == "hybrid" then (0.75 : ℚ) * vec + (0.25 : ℚ) * bmNorm bm
  else if mode == "vector" then vec
  else bmNorm bm

/-- The `scored` list of `(total, idx)` pairs, in candidate order. -/
def scoredList (mode : String) (vecHits bmHits : List (Nat × ℚ)) : List (ℚ × Nat) :=
  (buildCandidates vecHits bmHits).map (fun c => (fusedTotal mode c.2, c.1))

/-- Comparator of `scored.sort(key=lambda x: x[0], reverse=True)`: compare
fused scores only (a stable descending sort). -/
def scoreGE (a b : ℚ × Nat) : Bool :=
  decide (b.1 ≤ a.1)

/-- `scored.sort(...); top = scored[:top_k]`. -/
def topScored (mode : String) (vecHits bmHits : List (Nat × ℚ)) (k : Nat) : List (ℚ × Nat) :=
  ((scoredList mode vecHits bmHits).mergeSort scoreGE).take k

/-! ### Context assembly and `aquery` -/

/-- The chunk separator joined between retrieved texts. -/
def CTX_SEP : String := "\n\n---\n\n"

/-- Lines 334–335: truncate the context to the character budget and append
the truncation marker when it overflows. -/
def truncateCtx (budget : Nat) (ctx : String) : String :=
  if ctx.length > budget then pyTake ctx budget ++ TRUNC_MARKER else ctx

/-- The context assembled from the retrieved texts (line 333 + 334–335),
for a configured budget (`AURA_MAX_CTX_CHARS`, default 6000). -/
def assembleContext (budget : Nat) (parts : List String) : String :=
  truncateCtx budget (String.intercalate CTX_SEP parts)

/-- One element of the returned `hits` list. -/
structure Hit where
  score : ℚ
  text : String
  meta : List (String × String)
deriving Repr, DecidableEq

/-- The structured result of `aquery`. -/
structure QueryResult where
  answer : String
  sources : List String
  hits : List Hit
deriving Repr, DecidableEq

/-- `(r.get("meta") or {}).get("source")`. -/
def metaSource (meta : List (String × String)) : Option String :=
  (meta.find? (fun p => p.1 == "source")).map (fun p => p.2)

/-- The deduplicated source list accumulated over the top hits (truthy
string check modelled as non-emptiness). -/
def collectSources (rowsOf : Nat → Row) (top : List (ℚ × Nat)) : List String :=
  top.foldl (fun acc p =>
    match metaSource (rowsOf p.2).meta with
    | some src => if src ≠ "" ∧ src ∉ acc then acc ++ [src] else acc
    | none => acc) []

/-- The default row — `self._rows[idx]` is always in range in the code, the
default only totalizes the lookup. -/
def defaultRow : Row := ⟨"", "", []⟩

/-- `LightRAG.aquery(query, param)`.  External inputs are passed as
parameters: `qEmb` is the normalized query embedding produced by the
embedding client (consulted only in vector/hybrid mode), `bmScores` the
score vector of the external BM25 object, `gen` the completion client
(mapping the final prompt to the answer text).  `budget` is the configured
`MAX_CTX_CHARS`. -/
def aquery (s : Store) (budget : Nat) (qEmb : Vec) (bmScores : List ℚ)
    (gen : String → String) (query : String) (mode : String) (topK : Nat) : QueryResult :=
  if s.rows.length = 0 then
    ⟨"Database is empty. Build the database first.", [], []⟩
  else
    let m := (if mode = "" then "hybrid" else mode).toLower
    let k := max 1 topK
    let vecHits := if m == "vector" || m == "hybrid" then searchVector s qEmb (k * 2) else []
    let bmHits := if m == "bm25" || m == "hybrid" then searchBM25 s bmScores (k * 2) else []
    let top := topScored m vecHits bmHits k
    let hits := top.map (fun p =>
      let r := s.rows.getD p.2 defaultRow
      Hit.mk p.1 r.text r.meta)
    let sources := collectSources (fun i => s.rows.getD i defaultRow) top
    let context := assembleContext budget (top.map (fun p => (s.rows.getD p.2 defaultRow).text))
    let prompt := "CONTEXT:\n" ++ context ++ "\n\nQUESTION:\n" ++ query ++ "\n\nANSWER:"
    ⟨gen prompt, sources, hits⟩

/-- Score of chunk `i` in a hit list, `0` when absent — the claim-side
reading of `d.get("vec", 0.0)` / `d.get("bm25", 0.0)`. -/
def hitScoreOf (hits : List (Nat × ℚ)) (i : Nat) : ℚ :=
  ((hits.find? (fun p => p.1 == i)).map (fun p => p.2)).getD 0

/-! ## Query-keyword extraction (`lightrag.py`, lines 151–175) -/

/-- A Python value as returned by `json.loads` (the fragment needed here). -/
inductive PyVal where
  | str : String → PyVal
  | num : ℚ → PyVal
  | list : List PyVal → PyVal
  | dict : List (String × PyVal) → PyVal

/-- `content.replace("```json", "").replace("```", "").strip()`. -/
def cleanLLMJson (content : String) : String :=
  ((content.replace "```json" "").replace "```" "").trim

/-- The fallback value `{"high_level_keywords": [query], "low_level_keywords": []}`. -/
def kwFallback (query : String) : PyVal :=
  .dict [("high_level_keywords", .list [.str query]), ("low_level_keywords", .list [])]

/-- `_extract_query_keywords`, parameterized by the external `json.loads`
(`parse content = none` models a raised `JSONDecodeError`, `some v` a
successful parse).  Total by construction: every model output yields a
value, the parse failure path yielding exactly the fallback. -/
def extractQueryKeywords (parse : String → Option PyVal) (query content : String) : PyVal :=
  match parse (cleanLLMJson content) with
  | some v => v
  | none => kwFallback query

/-! ## Graph profiling (`_profile_and_embed_graph`, lines 94–110) -/

/-- Python `f"{x}"` on an optional attribute (`dict.get` yields `None`,
which formats as `"None"`). -/
def fmtOptStr : Option String → String
  | some s => s
  | none => "None"

/-- The text profiled for one node. -/
def nodeProfileText (name : String) (nd : NodeData) : String :=
  "Entity: " ++ name ++ ". Type: " ++ fmtOptStr nd.typ ++ ". Description: " ++
    fmtOptStr nd.description

/-- The text profiled for one edge. -/
def edgeProfileText (u v : String) (ed : EdgeData) : String :=
  "Relationship between " ++ u ++ " and " ++ v ++ ". Keywords: " ++ ed.keywords ++
    ". Description: " ++ ed.description

/-- One text/metadata pair passed to `vector_db.add_texts`. -/
structure ProfileChunk where
  text : String
  metaType : String
  metaKey : String
deriving Repr, DecidableEq

/-- `_profile_and_embed_graph`: one profile chunk per node (metadata
`{type: "entity", key: name}`), then one per edge (metadata
`{type: "relation", key: f"{u}-{v}"}`).  The guard `if texts:` skips the
`add_texts` call exactly when this list is empty. -/
def profileChunks (g : Graph) : List ProfileChunk :=
  g.nodes.map (fun p => ⟨nodeProfileText p.1 p.2, "entity", p.1⟩) ++
    g.edges.map (fun e => ⟨edgeProfileText e.1 e.2.1 e.2.2, "relation", e.1 ++ "-" ++ e.2.1⟩)

/-! ## The chunker (`database_api.py`, `_chunk_text`) -/

/-- Python `str.replace("\r\n", "\n")` on a character list. -/
def replaceCRLF : List Char → List Char
  | '\r' :: '\n' :: rest => '\n' :: replaceCRLF rest
  | c :: rest => c :: replaceCRLF rest
  | [] => []

/-- Python `str.replace("\r", "\n")` (applied after `replaceCRLF`). -/
def replaceCR : List Char → List Char
  | '\r' :: rest => '\n' :: replaceCR rest
  | c :: rest => c :: replaceCR rest
  | [] => []

/-- Whitespace strip on a character list (Python `str.strip()`). -/
def stripWs (s : List Char) : List Char :=
  stripBoth Char.isWhitespace s

/-- The `while i < n` loop of `_chunk_text`, fuel-indexed: each iteration
takes `text[i:j]` with `j = min(n, i + max_chars)`, keeps the stripped
chunk when non-empty, stops when `j >= n`, else restarts from
`i = max(0, j - overlap)` (natural subtraction).  `none` models
non-termination within the given fuel. -/
def chunkGo (t : List Char) (maxChars overlap : Nat) : Nat → Nat → Option (List (List Char))
  | 0, i => if i < t.length then none else some []
  | fuel + 1, i =>
    if i < t.length then
      let j := min t.length (i + maxChars)
      let chunk := stripWs ((t.take j).drop i)
      let tail? := if t.length ≤ j then some [] else chunkGo t maxChars overlap fuel (j - overlap)
      tail?.map (fun rest => if chunk.isEmpty then rest else chunk :: rest)
    else some []

/-- `_chunk_text(text, max_chars, overlap)`: normalize line endings, strip,
return `[]` on an empty result, else run the chunking loop (with enough
fuel for any terminating run). -/
def chunkText (t : List Char) (maxChars overlap : Nat) : Option (List (List Char)) :=
  if (stripWs (replaceCR (replaceCRLF t))).isEmpty then some []
  else chunkGo (stripWs (replaceCR (replaceCRLF t))) maxChars overlap
    ((stripWs (replaceCR (replaceCRLF t))).length + 1) 0

/-! ## Helper lemmas -/

theorem length_asString (l : List Char) : (List.asString l).length = l.length := rfl

theorem length_pyTake (s : String) (n : Nat) : (pyTake s n).length ≤ n := by
  rw [pyTake, length_asString]
  exact List.length_take_le n s.toList

theorem stripRightP_eq_nil_iff (p : Char → Bool) (l : List Char) :
    stripRightP p l = [] ↔ ∀ x ∈ l, p x := by
  rw [stripRightP, List.reverse_eq_nil_iff, List.dropWhile_eq_nil_iff]
  constructor
  · intro h x hx; exact h x (List.mem_reverse.mpr hx)
  · intro h x hx; exact h x (List.mem_reverse.mp hx)

theorem stripBoth_eq_nil_iff (p : Char → Bool) (l : List Char) :
    stripBoth p l = [] ↔ ∀ x ∈ l, p x := by
  rw [stripBoth, stripRightP_eq_nil_iff]
  constructor
  · intro h x hx
    have hsplit := List.takeWhile_append_dropWhile p l
    rw [← hsplit] at hx
    rcases List.mem_append.mp hx with h1 | h1
    · exact List.mem_takeWhile_imp h1
    · exact h x h1
  · intro h x hx
    simp only [stripLeftP] at hx
    exact h x ((List.dropWhile_suffix p).mem hx)

theorem head_dropWhile_not (p : Char → Bool) :
    ∀ (l : List Char) (c : Char) (r : List Char), l.dropWhile p = c :: r → p c = false := by
  intro l
  induction l with
  | nil => intro c r h; simp [List.dropWhile] at h
  | cons a as ih =>
    intro c r h
    rw [List.dropWhile_cons] at h
    by_cases hp : p a
    · rw [if_pos hp] at h; exact ih c r h
    · rw [if_neg hp] at h
      cases h
      simpa using hp

theorem stripRightP_front (p : Char → Bool) (l : List Char) : stripRightP p l <+: l := by
  have h : l.reverse.dropWhile p <:+ l.reverse := List.dropWhile_suffix p
  have h2 := List.reverse_prefix.mpr h
  simpa [stripRightP] using h2

theorem head_stripBoth_not (p : Char → Bool) (l : List Char) (c : Char) (r : List Char)
    (h : stripBoth p l = c :: r) : p c = false := by
  have hpre : stripBoth p l <+: stripLeftP p l := stripRightP_front p _
  rw [h] at hpre
  obtain ⟨t, ht⟩ := hpre
  exact head_dropWhile_not p l c (r ++ t) (by simpa [stripLeftP, List.cons_append] using ht.symm)

theorem length_stripBoth_le (p : Char → Bool) (l : List Char) :
    (stripBoth p l).length ≤ l.length :=
  le_trans (stripRightP_front p _).length_le (List.dropWhile_suffix p).length_le

theorem replaceCRLF_all_ws (t : List Char) :
    (replaceCRLF t).all Char.isWhitespace = t.all Char.isWhitespace := by
  induction t using replaceCRLF.induct
  case case1 rest ih => simp [replaceCRLF, ih]
  case case2 c rest h ih => simp only [replaceCRLF, List.all_cons, ih]
  case case3 => rfl

theorem replaceCR_all_ws (t : List Char) :
    (replaceCR t).all Char.isWhitespace = t.all Char.isWhitespace := by
  induction t using replaceCR.induct
  case case1 rest ih => simp [replaceCR, ih]
  case case2 c rest h ih => simp only [replaceCR, List.all_cons, ih]
  case case3 => rfl

theorem chunkGo_total (t : List Char) (maxChars overlap : Nat) (h : overlap < maxChars) :
    ∀ (fuel i : Nat), t.length - i ≤ fuel →
      ∃ cs, chunkGo t maxChars overlap fuel i = some cs := by
  intro fuel
  induction fuel with
  | zero =>
    intro i hi
    refine ⟨[], ?_⟩
    rw [chunkGo, if_neg (by omega)]
  | succ fuel ih =>
    intro i hi
    by_cases hlt : i < t.length
    · rw [chunkGo]
      rw [if_pos hlt]
      by_cases hj : t.length ≤ min t.length (i + maxChars)
      · simp only [if_pos hj]
        exact ⟨_, rfl⟩
      · simp only [if_neg hj]
        obtain ⟨cs, hcs⟩ := ih (min t.length (i + maxChars) - overlap) (by omega)
        rw [hcs]
        exact ⟨_, rfl⟩
    · refine ⟨[], ?_⟩
      rw [chunkGo, if_neg hlt]

theorem chunkGo_bounds (t : List Char) (maxChars overlap : Nat) :
    ∀ (fuel i : Nat) (cs : List (List Char)), chunkGo t maxChars overlap fuel i = some cs →
      ∀ c ∈ cs, c ≠ [] ∧ c.length ≤ maxChars := by
  intro fuel
  induction fuel with
  | zero =>
    intro i cs hcs c hc
    rw [chunkGo] at hcs
    split at hcs
    · cases hcs
    · cases hcs; cases hc
  | succ fuel ih =>
    intro i cs hcs c hc
    rw [chunkGo] at hcs
    split at hcs
    case isTrue hlt =>
      simp only [Option.map_eq_some'] at hcs
      obtain ⟨rest, hrest, hcases⟩ := hcs
      have hrest_ok : ∀ c ∈ rest, c ≠ [] ∧ c.length ≤ maxChars := by
        split at hrest
        · cases hrest; intro c hc; cases hc
        · exact fun c hc => ih _ _ hrest c hc
      subst hcases
      split at hc
      · exact hrest_ok c hc
      case isFalse hne =>
        rcases List.mem_cons.mp hc with rfl | hmem
        · refine ⟨fun hnil => hne (by simp [hnil]), ?_⟩
          simp only [stripWs]
          refine le_trans (length_stripBoth_le _ _) ?_
          rw [List.length_drop, List.length_take]
          omega
        · exact hrest_ok c hmem
    · cases hcs; cases hc

theorem chunkGo_ne_nil (t : List Char) (maxChars overlap : Nat) (c0 : Char) (r : List Char)
    (ht : t = c0 :: r) (hc0 : Char.isWhitespace c0 = false) (hmax : 1 ≤ maxChars)
    (fuel : Nat) (cs : List (List Char))
    (h : chunkGo t maxChars overlap (fuel + 1) 0 = some cs) : cs ≠ [] := by
  subst ht
  rw [chunkGo] at h
  have hlen : 0 < (c0 :: r).length := by simp
  rw [if_pos hlen] at h
  simp only [Option.map_eq_some'] at h
  obtain ⟨rest, _, hcs⟩ := h
  have hchunk :
      ¬ (stripWs (((c0 :: r).take (min (c0 :: r).length (0 + maxChars))).drop 0)).isEmpty = true := by
    intro hemp
    rw [List.isEmpty_iff] at hemp
    have hall := (stripBoth_eq_nil_iff Char.isWhitespace _).mp hemp
    have hmem : c0 ∈ ((c0 :: r).take (min (c0 :: r).length (0 + maxChars))).drop 0 := by
      rw [List.drop_zero]
      rcases hmin : min (c0 :: r).length (0 + maxChars) with _ | k
      · exfalso
        simp only [List.length_cons] at hmin
        omega
      · rw [List.take_succ_cons]
        exact List.mem_cons_self _ _
    rw [hall c0 hmem] at hc0
    cases hc0
  rw [if_neg hchunk] at hcs
  intro hnil
  rw [← hcs] at hnil
  cases hnil

theorem ipLE_trans (a b c : Nat × ℚ) (hab : ipLE a b) (hbc : ipLE b c) : ipLE a c := by
  simp only [ipLE, Bool.or_eq_true, Bool.and_eq_true, decide_eq_true_eq] at *
  rcases hab with h1 | ⟨h1, h1'⟩ <;> rcases hbc with h2 | ⟨h2, h2'⟩
  · exact Or.inl (lt_trans h2 h1)
  · exact Or.inl (h2 ▸ h1)
  · exact Or.inl (by rw [h1]; exact h2)
  · exact Or.inr ⟨h1.trans h2, le_trans h1' h2'⟩

theorem ipLE_total (a b : Nat × ℚ) : ipLE a b || ipLE b a := by
  simp only [ipLE, Bool.or_eq_true, Bool.and_eq_true, decide_eq_true_eq]
  rcases lt_trichotomy a.2 b.2 with h | h | h
  · exact Or.inr (Or.inl h)
  · rcases Nat.le_total a.1 b.1 with h' | h'
    · exact Or.inl (Or.inr ⟨h, h'⟩)
    · exact Or.inr (Or.inr ⟨h.symm, h'⟩)
  · exact Or.inl (Or.inl h)

theorem faissSearchTopK_spec (ix : List Vec) (q : Vec) (k : Nat) :
    List.Pairwise strictDesc (faissSearchTopK ix q k) ∧
    ∀ p ∈ faissSearchTopK ix q k, p.1 < ix.length ∧ p.2 = dotQ q (ix.getD p.1 []) := by
  have hperm := List.mergeSort_perm
    ((List.range ix.length).map (fun i => (i, dotQ q (ix.getD i [])))) ipLE
  have hsorted := List.sorted_mergeSort ipLE_trans ipLE_total
    ((List.range ix.length).map (fun i => (i, dotQ q (ix.getD i []))))
  have hnodup_base :
      (((List.range ix.length).map (fun i => (i, dotQ q (ix.getD i [])))).map Prod.fst).Nodup := by
    rw [List.map_map]
    have hid : (Prod.fst ∘ fun i : Nat => (i, dotQ q (ix.getD i []))) = id := rfl
    rw [hid, List.map_id]
    exact List.nodup_range _
  have hnodup : (((List.range ix.length).map
      (fun i => (i, dotQ q (ix.getD i [])))).mergeSort ipLE).Pairwise
        (fun a b : Nat × ℚ => a.1 ≠ b.1) := by
    have h1 := (List.Perm.nodup_iff (hperm.map Prod.fst)).mpr hnodup_base
    exact List.pairwise_map.mp h1
  have hcomb := hsorted.and hnodup
  have hstrict : (((List.range ix.length).map
      (fun i => (i, dotQ q (ix.getD i [])))).mergeSort ipLE).Pairwise strictDesc := by
    refine hcomb.imp ?_
    intro a b ⟨h1, h2⟩
    simp only [ipLE, Bool.or_eq_true, Bool.and_eq_true, decide_eq_true_eq] at h1
    rcases h1 with h1 | ⟨h1, h1'⟩
    · exact Or.inl h1
    · exact Or.inr ⟨h1, lt_of_le_of_ne h1' h2⟩
  constructor
  · exact hstrict.sublist (List.take_sublist k _)
  · intro p hp
    have hmem : p ∈ (List.range ix.length).map (fun i => (i, dotQ q (ix.getD i []))) :=
      hperm.mem_iff.mp (List.mem_of_mem_take hp)
    rcases List.mem_map.mp hmem with ⟨i, hi, rfl⟩
    exact ⟨List.mem_range.mp hi, rfl⟩

theorem applyBm_fst (bmHits : List (Nat × ℚ)) (c : Cand) : (applyBm bmHits c).1 = c.1 := by
  rcases hf : bmHits.find? (fun q => q.1 == c.1) with _ | q
  · rw [applyBm, hf]
  · rw [applyBm, hf]

theorem find?_key_of_mem {l : List (Nat × ℚ)} (hn : (l.map Prod.fst).Nodup)
    {p : Nat × ℚ} (hp : p ∈ l) : l.find? (fun q => q.1 == p.1) = some p := by
  induction l with
  | nil => cases hp
  | cons a as ih =>
    simp only [List.map_cons, List.nodup_cons] at hn
    by_cases ha : a.1 = p.1
    · rcases List.mem_cons.mp hp with rfl | hmem
      · simp [List.find?_cons]
      · exfalso
        exact hn.1 (ha ▸ List.mem_map.mpr ⟨p, hmem, rfl⟩)
    · rcases List.mem_cons.mp hp with rfl | hmem
      · exact absurd rfl ha
      · rw [List.find?_cons_of_neg _ (by simpa using ha)]
        exact ih hn.2 hmem

theorem foldl_upsertVec_closed (hits : List (Nat × ℚ)) (hv : (hits.map Prod.fst).Nodup) :
    hits.foldl (fun cs p => upsertVec cs p.1 p.2) [] = hits.map vecCand := by
  induction hits using List.reverseRecOn with
  | nil => rfl
  | append_singleton hs p ih =>
    have hv' : (hs.map Prod.fst).Nodup := by
      rw [List.map_append, List.nodup_append] at hv
      exact hv.1
    have hpnot : p.1 ∉ hs.map Prod.fst := by
      rw [List.map_append, List.nodup_append] at hv
      intro hmem
      exact hv.2.2 hmem (by simp)
    rw [List.foldl_append, ih hv']
    simp only [List.foldl_cons, List.foldl_nil]
    have hany : (hs.map vecCand).any (fun c => c.1 == p.1) = false := by
      rw [List.any_eq_false]
      intro c hc
      rcases List.mem_map.mp hc with ⟨q, hq, rfl⟩
      simp only [vecCand, beq_iff_eq]
      intro hqp
      exact hpnot (hqp ▸ List.mem_map.mpr ⟨q, hq, rfl⟩)
    rw [upsertVec, if_neg (by simp [hany])]
    simp [vecCand]

theorem foldl_upsertBm_closed (bmHits : List (Nat × ℚ)) (acc : List Cand)
    (hb : (bmHits.map Prod.fst).Nodup) :
    bmHits.foldl (fun cs p => upsertBm cs p.1 p.2) acc =
      acc.map (applyBm bmHits) ++
        (bmHits.filter (fun p => !(acc.any (fun c => c.1 == p.1)))).map bmCand := by
  induction bmHits using List.reverseRecOn with
  | nil =>
    have h1 : acc.map (applyBm []) = acc := by
      have hid : applyBm [] = id := funext fun c => by rw [applyBm, List.find?_nil]; rfl
      rw [hid, List.map_id]
    simp [h1]
  | append_singleton bs p ih =>
    have hb' : (bs.map Prod.fst).Nodup := by
      rw [List.map_append, List.nodup_append] at hb
      exact hb.1
    have hpnot : p.1 ∉ bs.map Prod.fst := by
      rw [List.map_append, List.nodup_append] at hb
      intro hmem
      exact hb.2.2 hmem (by simp)
    have hfindbs_none : ∀ c : Cand, c.1 = p.1 → bs.find? (fun q => q.1 == c.1) = none := by
      intro c hc
      rw [List.find?_eq_none]
      intro q hq
      simp only [beq_iff_eq, hc]
      intro hqp
      exact hpnot (hqp ▸ List.mem_map.mpr ⟨q, hq, rfl⟩)
    have happly_eq : ∀ c : Cand, c.1 = p.1 → applyBm (bs ++ [p]) c = (c.1, c.2.1, some p.2) := by
      intro c hc
      have hfind : (bs ++ [p]).find? (fun q => q.1 == c.1) = some p := by
        rw [List.find?_append, hfindbs_none c hc]
        simp [hc]
      rw [applyBm, hfind]
    have happly_ne : ∀ c : Cand, c.1 ≠ p.1 → applyBm (bs ++ [p]) c = applyBm bs c := by
      intro c hc
      have hfind : (bs ++ [p]).find? (fun q => q.1 == c.1) = bs.find? (fun q => q.1 == c.1) := by
        have hp1 : List.find? (fun q => q.1 == c.1) [p] = none := by
          rw [List.find?_cons_of_neg _ (by simpa using fun h => hc h.symm), List.find?_nil]
        rcases hf : bs.find? (fun q => q.1 == c.1) with _ | q
        · rw [List.find?_append, hf, hp1]
          rfl
        · rw [List.find?_append, hf]
          rfl
      rw [applyBm, applyBm, hfind]
    rw [List.foldl_append, ih hb']
    simp only [List.foldl_cons, List.foldl_nil]
    by_cases hmem : acc.any (fun c => c.1 == p.1) = true
    · have hcf_any : (acc.map (applyBm bs) ++
          (bs.filter (fun q => !(acc.any (fun c => c.1 == q.1)))).map bmCand).any
            (fun c => c.1 == p.1) = true := by
        rw [List.any_append]
        apply Bool.or_eq_true_iff.mpr
        left
        rw [List.any_map]
        rcases List.any_eq_true.mp hmem with ⟨c, hc, hcp⟩
        exact List.any_eq_true.mpr ⟨c, hc, by simpa [Function.comp, applyBm_fst] using hcp⟩
      rw [upsertBm, if_pos hcf_any]
      have hfilter : (bs ++ [p]).filter (fun q => !(acc.any (fun c => c.1 == q.1))) =
          bs.filter (fun q => !(acc.any (fun c => c.1 == q.1))) := by
        rw [List.filter_append]
        simp [hmem]
      rw [hfilter, List.map_append]
      simp only [List.map_map]
      congr 1
      · apply List.map_congr_left
        intro c hc
        simp only [Function.comp_apply]
        by_cases hcp : c.1 = p.1
        · have h1 : applyBm bs c = c := by rw [applyBm, hfindbs_none c hcp]
          simp only [h1, happly_eq c hcp]
          rw [if_pos (by simp [hcp])]
        · simp only [happly_ne c hcp]
          rw [if_neg (by simp [applyBm_fst, hcp])]
      · apply List.map_congr_left
        intro q hq
        simp only [Function.comp_apply, bmCand]
        have hqk : q.1 ≠ p.1 := by
          intro h
          exact hpnot (h ▸ List.mem_map.mpr ⟨q, List.mem_of_mem_filter hq, rfl⟩)
        rw [if_neg (by simpa using hqk)]
    · have hmem' : ∀ c ∈ acc, c.1 ≠ p.1 := by
        intro c hc h
        exact hmem (List.any_eq_true.mpr ⟨c, hc, by simp [h]⟩)
      have hcf_any : (acc.map (applyBm bs) ++
          (bs.filter (fun q => !(acc.any (fun c => c.1 == q.1)))).map bmCand).any
            (fun c => c.1 == p.1) = false := by
        rw [List.any_append, Bool.or_eq_false_iff]
        constructor
        · rw [List.any_map, List.any_eq_false]
          intro c hc
          simp only [Function.comp_apply, applyBm_fst, beq_iff_eq]
          exact hmem' c hc
        · rw [List.any_eq_false]
          intro c hc
          rcases List.mem_map.mp hc with ⟨q, hq, rfl⟩
          simp only [bmCand, beq_iff_eq]
          intro h
          exact hpnot (h ▸ List.mem_map.mpr ⟨q, List.mem_of_mem_filter hq, rfl⟩)
      rw [upsertBm, if_neg (by simp [hcf_any])]
      have hfilter : (bs ++ [p]).filter (fun q => !(acc.any (fun c => c.1 == q.1))) =
          bs.filter (fun q => !(acc.any (fun c => c.1 == q.1))) ++ [p] := by
        rw [List.filter_append]
        congr 1
        have hfalse : acc.any (fun c => c.1 == p.1) = false := by
          rw [List.any_eq_false]
          intro c hc
          simpa using hmem' c hc
        simp [List.filter_cons, hfalse]
      rw [hfilter, List.map_append, ← List.append_assoc]
      congr 1
      congr 1
      apply List.map_congr_left
      intro c hc
      exact (happly_ne c (hmem' c hc)).symm
theorem buildCandidates_closed (v b : List (Nat × ℚ)) (hv : (v.map Prod.fst).Nodup)
    (hb : (b.map Prod.fst).Nodup) :
    buildCandidates v b = (v.map vecCand).map (applyBm b) ++
      (b.filter (fun p => !((v.map vecCand).any (fun c => c.1 == p.1)))).map bmCand := by
  rw [buildCandidates, foldl_upsertVec_closed v hv, foldl_upsertBm_closed b _ hb]

theorem buildCandidates_mem (v b : List (Nat × ℚ)) (hv : (v.map Prod.fst).Nodup)
    (hb : (b.map Prod.fst).Nodup) :
    ∀ c ∈ buildCandidates v b,
      c.2.1 = (v.find? (fun q => q.1 == c.1)).map (fun q => q.2) ∧
      c.2.2 = (b.find? (fun q => q.1 == c.1)).map (fun q => q.2) := by
  intro c hc
  rw [buildCandidates_closed v b hv hb] at hc
  rcases List.mem_append.mp hc with h | h
  · rcases List.mem_map.mp h with ⟨c0, hc0, rfl⟩
    rcases List.mem_map.mp hc0 with ⟨q, hq, rfl⟩
    have hvfind : v.find? (fun r => r.1 == q.1) = some q := find?_key_of_mem hv hq
    rcases hf : b.find? (fun r => r.1 == (vecCand q).1) with _ | qb
    · simp only [applyBm, hf, vecCand]
      simp only [vecCand] at hf
      simp [hvfind, hf]
    · simp only [applyBm, hf, vecCand]
      simp only [vecCand] at hf
      simp [hvfind, hf]
  · rcases List.mem_map.mp h with ⟨q, hq, rfl⟩
    have hqb : q ∈ b := List.mem_of_mem_filter hq
    have hbfind : b.find? (fun r => r.1 == q.1) = some q := find?_key_of_mem hb hqb
    have hcond := (List.mem_filter.mp hq).2
    have hvnone : v.find? (fun r => r.1 == q.1) = none := by
      rw [List.find?_eq_none]
      intro r hr
      simp only [Bool.not_eq_true', List.any_eq_false] at hcond
      have := hcond (vecCand r) (List.mem_map.mpr ⟨r, hr, rfl⟩)
      simpa [vecCand] using this
    simp [bmCand, hbfind, hvnone]

theorem scoreGE_trans (a b c : ℚ × Nat) (h1 : scoreGE a b) (h2 : scoreGE b c) : scoreGE a c := by
  simp only [scoreGE, decide_eq_true_eq] at *
  exact le_trans h2 h1

theorem scoreGE_total (a b : ℚ × Nat) : scoreGE a b || scoreGE b a := by
  simp only [scoreGE, Bool.or_eq_true, decide_eq_true_eq]
  exact (le_total b.1 a.1).imp id id

theorem insertEntities_run (es : List EntityIns) :
    ∀ (ns : List (String × NodeData)) (edges : List (String × String × EdgeData)),
      (∀ p ∈ ns, p.2.description.isSome) →
      insertEntities ⟨ns, edges⟩ es = .ok ⟨es.foldl entityStep ns, edges⟩ := by
  induction es with
  | nil => intro ns edges _; rfl
  | cons e rest ih =>
    intro ns edges hsome
    by_cases hany : ns.any (fun p => p.1 == e.name)
    · obtain ⟨pr, hfind⟩ := Option.isSome_iff_exists.mp
        (List.find?_isSome.mpr (List.any_eq_true.mp hany))
      have hmem := List.mem_of_find?_eq_some hfind
      obtain ⟨d, hd⟩ := Option.isSome_iff_exists.mp (hsome pr hmem)
      have haom : Graph.addOrMergeNode ⟨ns, edges⟩ e.name e.ty e.desc =
          .ok ⟨entityStep ns e, edges⟩ := by
        rw [Graph.addOrMergeNode, if_pos (by simpa [Graph.hasNode] using hany),
          Graph.appendNodeDesc, Graph.findNode]
        show (match (ns.find? fun p => p.1 == e.name).map (fun p => p.2) with
          | none => _ | some nd => _) = _
        rw [hfind]
        simp only [Option.map_some']
        rw [hd]
        rw [entityStep, if_pos hany]
      rw [insertEntities, haom]
      exact ih _ edges (by
        intro p hp
        rw [entityStep, if_pos hany] at hp
        rcases List.mem_map.mp hp with ⟨q, hq, rfl⟩
        by_cases hqe : q.1 == e.name
        · simp only [if_pos hqe]
          obtain ⟨dd, hdd⟩ := Option.isSome_iff_exists.mp (hsome q hq)
          simp [hdd]
        · simp only [if_neg hqe]
          exact hsome q hq)
    · have haom : Graph.addOrMergeNode ⟨ns, edges⟩ e.name e.ty e.desc =
          .ok ⟨entityStep ns e, edges⟩ := by
        rw [Graph.addOrMergeNode, if_neg (by simpa [Graph.hasNode] using hany),
          Graph.addNodeEntity, entityStep, if_neg hany]
      rw [insertEntities, haom]
      exact ih _ edges (by
        intro p hp
        rw [entityStep, if_neg hany] at hp
        rcases List.mem_append.mp hp with h | h
        · exact hsome p h
        · rcases List.mem_cons.mp h with rfl | h2
          · simp
          · cases h2)

theorem any_key_iff (ns : List (String × NodeData)) (n : String) :
    ns.any (fun p => p.1 == n) = true ↔ n ∈ ns.map Prod.fst := by
  rw [List.any_eq_true]
  constructor
  · rintro ⟨p, hp, hpn⟩
    exact List.mem_map.mpr ⟨p, hp, by simpa using hpn⟩
  · intro h
    rcases List.mem_map.mp h with ⟨p, hp, rfl⟩
    exact ⟨p, hp, by simp⟩

theorem entityStep_keys (es : List EntityIns) :
    ∀ ns : List (String × NodeData),
      (es.foldl entityStep ns).map Prod.fst =
        (es.map EntityIns.name).foldl (fun ks nm => if nm ∈ ks then ks else ks ++ [nm])
          (ns.map Prod.fst) := by
  induction es with
  | nil => intro ns; rfl
  | cons e rest ih =>
    intro ns
    simp only [List.foldl_cons, List.map_cons]
    rw [ih (entityStep ns e)]
    congr 1
    rw [entityStep]
    by_cases hany : ns.any (fun p => p.1 == e.name)
    · rw [if_pos hany, if_pos ((any_key_iff ns e.name).mp hany), List.map_map]
      apply List.map_congr_left
      intro p _
      simp only [Function.comp_apply]
      split <;> rfl
    · rw [if_neg hany, if_neg (fun h => absurd ((any_key_iff ns e.name).mpr h) hany)]
      simp

theorem foldKeys_spec (names : List String) :
    ∀ ks : List String, ks.Nodup →
      (names.foldl (fun ks nm => if nm ∈ ks then ks else ks ++ [nm]) ks).Nodup ∧
      (names.foldl (fun ks nm => if nm ∈ ks then ks else ks ++ [nm]) ks).toFinset =
        ks.toFinset ∪ names.toFinset := by
  induction names with
  | nil => intro ks h; simpa using h
  | cons nm rest ih =>
    intro ks hks
    simp only [List.foldl_cons]
    by_cases hmem : nm ∈ ks
    · rw [if_pos hmem]
      obtain ⟨h1, h2⟩ := ih ks hks
      refine ⟨h1, ?_⟩
      rw [h2, List.toFinset_cons]
      ext x
      simp only [Finset.mem_union, Finset.mem_insert, List.mem_toFinset]
      constructor
      · rintro (h | h)
        · exact Or.inl h
        · exact Or.inr (Or.inr h)
      · rintro (h | h | h)
        · exact Or.inl h
        · exact Or.inl (h ▸ hmem)
        · exact Or.inr h
    · rw [if_neg hmem]
      obtain ⟨h1, h2⟩ := ih (ks ++ [nm]) (by
        rw [List.nodup_append]
        exact ⟨hks, List.nodup_singleton nm, by
          intro x hx hx2
          rcases List.mem_singleton.mp hx2 with rfl
          exact hmem hx⟩)
      refine ⟨h1, ?_⟩
      rw [h2, List.toFinset_append, List.toFinset_cons]
      ext x
      simp only [Finset.mem_union, Finset.mem_insert, List.mem_toFinset, List.toFinset_cons,
        List.toFinset_nil, Finset.union_assoc, Finset.mem_singleton]
      tauto

theorem entityBuilt_length (es : List EntityIns) :
    (es.foldl entityStep []).length = (es.map EntityIns.name).toFinset.card := by
  have hkeys := entityStep_keys es []
  simp only [List.map_nil] at hkeys
  obtain ⟨h1, h2⟩ := foldKeys_spec (es.map EntityIns.name) [] List.nodup_nil
  have hlen : (es.foldl entityStep []).length =
      ((es.foldl entityStep []).map Prod.fst).length := (List.length_map _ _).symm
  rw [hlen, hkeys]
  rw [← List.toFinset_card_of_nodup h1, h2]
  simp



theorem mem_entityBuilt_keys (es : List EntityIns) (n : String) :
    n ∈ (es.foldl entityStep []).map Prod.fst ↔ n ∈ es.map EntityIns.name := by
  have hkeys := entityStep_keys es []
  simp only [List.map_nil] at hkeys
  obtain ⟨h1, h2⟩ := foldKeys_spec (es.map EntityIns.name) [] List.nodup_nil
  rw [hkeys, ← List.mem_toFinset, h2]
  simp

theorem find?_map_keypres (f : String × NodeData → String × NodeData)
    (hf : ∀ p, (f p).1 = p.1) (ns : List (String × NodeData)) (n : String) :
    (ns.map f).find? (fun p => p.1 == n) = (ns.find? (fun p => p.1 == n)).map f := by
  induction ns with
  | nil => rfl
  | cons a as ih =>
    simp only [List.map_cons]
    by_cases ha : (a.1 == n) = true
    · simp only [List.find?_cons, hf, ha, Option.map_some']
    · have ha' : (a.1 == n) = false := by rwa [Bool.not_eq_true] at ha
      simp only [List.find?_cons, hf, ha', ih]

theorem descsFor_append (es : List EntityIns) (e : EntityIns) (n : String) :
    descsFor (es ++ [e]) n = descsFor es n ++ (if e.name = n then [e.desc] else []) := by
  rw [descsFor, List.filterMap_append]
  congr 1
  simp only [List.filterMap_cons, List.filterMap_nil]
  split <;> simp_all

theorem descsFor_eq_nil (es : List EntityIns) (n : String) (h : n ∉ es.map EntityIns.name) :
    descsFor es n = [] := by
  rw [descsFor, List.filterMap_eq_nil_iff]
  intro e he
  rw [if_neg]
  intro hne
  exact h (List.mem_map.mpr ⟨e, he, hne⟩)

theorem descsFor_ne_nil (es : List EntityIns) (n : String) (h : n ∈ es.map EntityIns.name) :
    descsFor es n ≠ [] := by
  induction es with
  | nil => simp at h
  | cons e rest ih =>
    rw [descsFor, List.filterMap_cons]
    by_cases he : e.name = n
    · rw [if_pos he]
      simp
    · rw [if_neg he]
      have hmem : n ∈ rest.map EntityIns.name := by
        rcases List.mem_map.mp h with ⟨a, ha, rfl⟩
        rcases List.mem_cons.mp ha with rfl | h2
        · exact absurd rfl he
        · exact List.mem_map.mpr ⟨a, h2, rfl⟩
      simpa [descsFor] using ih hmem

theorem joinSpace_append (ds : List String) (d : String) (h : ds ≠ []) :
    joinSpace (ds ++ [d]) = joinSpace ds ++ " " ++ d := by
  cases ds with
  | nil => exact absurd rfl h
  | cons d0 rest =>
    rw [List.cons_append, joinSpace, joinSpace, List.foldl_append]
    rfl



theorem entityBuilt_find (es : List EntityIns) :
    ∀ n : String,
      (n ∉ es.map EntityIns.name →
        (es.foldl entityStep []).find? (fun p => p.1 == n) = none) ∧
      (n ∈ es.map EntityIns.name → ∃ ty,
        (es.foldl entityStep []).find? (fun p => p.1 == n) =
          some (n, ⟨some ty, some (joinSpace (descsFor es n))⟩)) := by
  induction es using List.reverseRecOn with
  | nil =>
    intro n
    refine ⟨fun _ => rfl, fun h => by simp at h⟩
  | append_singleton es e ih =>
    intro n
    have hfold : (es ++ [e]).foldl entityStep [] = entityStep (es.foldl entityStep []) e := by
      rw [List.foldl_append, List.foldl_cons, List.foldl_nil]
    have hnames : (es ++ [e]).map EntityIns.name = es.map EntityIns.name ++ [e.name] := by
      rw [List.map_append, List.map_cons, List.map_nil]
    by_cases hany : (es.foldl entityStep []).any (fun p => p.1 == e.name) = true
    · -- e.name is already a node: this insertion appends to its description
      have hmemname : e.name ∈ es.map EntityIns.name :=
        (mem_entityBuilt_keys es e.name).mp ((any_key_iff _ _).mp hany)
      have hkeypres : ∀ p : String × NodeData,
          ((fun p => if p.1 == e.name then
            (p.1, { p.2 with description := p.2.description.map (fun d => d ++ " " ++ e.desc) })
            else p) p).1 = p.1 := by
        intro p
        by_cases hp : (p.1 == e.name) = true
        · simp [hp]
        · simp [hp]
      constructor
      · intro hnot
        rw [hnames] at hnot
        simp only [List.mem_append, List.mem_singleton, not_or] at hnot
        rw [hfold, entityStep, if_pos hany, find?_map_keypres _ hkeypres, (ih n).1 hnot.1]
        rfl
      · intro hmem2
        by_cases hne : n = e.name
        · subst hne
          obtain ⟨ty, hf⟩ := (ih e.name).2 hmemname
          refine ⟨ty, ?_⟩
          rw [hfold, entityStep, if_pos hany, find?_map_keypres _ hkeypres, hf,
            Option.map_some']
          have hds := descsFor_append es e e.name
          rw [if_pos rfl] at hds
          rw [hds, joinSpace_append _ _ (descsFor_ne_nil es e.name hmemname)]
          simp
        · have hN : n ∈ es.map EntityIns.name := by
            rw [hnames] at hmem2
            rcases List.mem_append.mp hmem2 with h | h
            · exact h
            · exact absurd (List.mem_singleton.mp h) hne
          obtain ⟨ty, hf⟩ := (ih n).2 hN
          refine ⟨ty, ?_⟩
          rw [hfold, entityStep, if_pos hany, find?_map_keypres _ hkeypres, hf,
            Option.map_some']
          have hds := descsFor_append es e n
          rw [if_neg (fun h => hne h.symm), List.append_nil] at hds
          rw [hds]
          simp only [beq_iff_eq]
          rw [if_neg hne]
    · -- e.name is a fresh node: appended at the end
      have hmemname : e.name ∉ es.map EntityIns.name := fun h =>
        hany ((any_key_iff _ _).mpr ((mem_entityBuilt_keys es e.name).mpr h))
      have hfold2 : (es ++ [e]).foldl entityStep [] =
          es.foldl entityStep [] ++ [(e.name, ⟨some e.ty, some e.desc⟩)] := by
        rw [hfold, entityStep, if_neg hany]
      constructor
      · intro hnot
        rw [hnames] at hnot
        simp only [List.mem_append, List.mem_singleton, not_or] at hnot
        rw [hfold2, List.find?_append, (ih n).1 hnot.1]
        have hsingle : List.find? (fun p => p.1 == n)
            [((e.name, ⟨some e.ty, some e.desc⟩) : String × NodeData)] = none := by
          rw [List.find?_cons_of_neg _ (by simpa using fun h => hnot.2 h.symm), List.find?_nil]
        rw [hsingle]
        rfl
      · intro hmem2
        by_cases hne : n = e.name
        · subst hne
          refine ⟨e.ty, ?_⟩
          rw [hfold2, List.find?_append, (ih e.name).1 hmemname]
          have hsingle : List.find? (fun p => p.1 == e.name)
              [((e.name, ⟨some e.ty, some e.desc⟩) : String × NodeData)] =
              some (e.name, ⟨some e.ty, some e.desc⟩) := by
            rw [List.find?_cons_of_pos _ (by simp)]
          rw [hsingle]
          have hds := descsFor_append es e e.name
          rw [if_pos rfl, descsFor_eq_nil es e.name hmemname, List.nil_append] at hds
          rw [hds]
          rfl
        · have hN : n ∈ es.map EntityIns.name := by
            rw [hnames] at hmem2
            rcases List.mem_append.mp hmem2 with h | h
            · exact h
            · exact absurd (List.mem_singleton.mp h) hne
          obtain ⟨ty, hf⟩ := (ih n).2 hN
          refine ⟨ty, ?_⟩
          rw [hfold2, List.find?_append, hf]
          have hds := descsFor_append es e n
          rw [if_neg (fun h => hne h.symm), List.append_nil] at hds
          rw [hds]
          rfl

/-! ## Claim theorems -/

/-- C3 (counterexample): a full index build over a graph holding one node
inserts exactly one chunk, whose metadata type is `"entity"` — no chunk
with metadata type `"community_summary"` is ever inserted, although any
community detection on a one-node graph yields at least one community. -/
theorem community_summary_missing :
    (profileChunks ⟨[("A", ⟨some "person", some "d"⟩)], []⟩).map ProfileChunk.metaType
      = ["entity"] ∧
    (profileChunks ⟨[("A", ⟨some "person", some "d"⟩)], []⟩).all
      (fun c => c.metaType != "community_summary") = true :=
  ⟨rfl, rfl⟩

/-- C3 (amended): after a full index build, no community detection is run;
instead the profiling phase inserts exactly one chunk per graph node (with
metadata `{type: "entity", key: name}`) and one per edge (with metadata
`{type: "relation", key: u ++ "-" ++ v}`), and the insertion is skipped
exactly when the graph has no nodes and no edges. -/
theorem profile_chunks_characterization (g : Graph) :
    (profileChunks g).length = g.nodes.length + g.edges.length ∧
    (∀ c ∈ profileChunks g,
      (∃ p ∈ g.nodes, c = ⟨nodeProfileText p.1 p.2, "entity", p.1⟩) ∨
      (∃ e ∈ g.edges, c = ⟨edgeProfileText e.1 e.2.1 e.2.2, "relation", e.1 ++ "-" ++ e.2.1⟩)) ∧
    (profileChunks g = [] ↔ g.nodes = [] ∧ g.edges = []) := by
  refine ⟨by simp [profileChunks], ?_, by simp [profileChunks]⟩
  intro c hc
  rcases List.mem_append.mp hc with h | h
  · rcases List.mem_map.mp h with ⟨p, hp, rfl⟩
    exact Or.inl ⟨p, hp, rfl⟩
  · rcases List.mem_map.mp h with ⟨e, he, rfl⟩
    exact Or.inr ⟨e, he, rfl⟩

/-- C3 (amended, witness): the characterization evaluated on a concrete
one-node, one-edge graph. -/
theorem profile_chunks_characterization_witness :
    let g : Graph := ⟨[("A", ⟨some "person", some "d"⟩), ("B", ⟨none, none⟩)],
      [("A", "B", ⟨"rel", "kw"⟩)]⟩
    (profileChunks g).length = g.nodes.length + g.edges.length ∧
    (∀ c ∈ profileChunks g,
      (∃ p ∈ g.nodes, c = ⟨nodeProfileText p.1 p.2, "entity", p.1⟩) ∨
      (∃ e ∈ g.edges, c = ⟨edgeProfileText e.1 e.2.1 e.2.2, "relation", e.1 ++ "-" ++ e.2.1⟩)) ∧
    (profileChunks g = [] ↔ g.nodes = [] ∧ g.edges = []) :=
  profile_chunks_characterization _

/-- C4: a query against a store holding zero chunks returns the canned
answer with an empty source list and empty hit list without consulting any
model, and both underlying retrieval methods return the empty result. -/
theorem empty_store_query (s : Store) (h : s.rows = []) (budget : Nat) (qEmb : Vec)
    (bmScores : List ℚ) (gen : String → String) (query mode : String) (topK k : Nat) :
    aquery s budget qEmb bmScores gen query mode topK =
      ⟨"Database is empty. Build the database first.", [], []⟩ ∧
    searchVector s qEmb k = [] ∧
    searchBM25 s bmScores k = [] := by
  obtain ⟨rows, emb, index, toks, bm, cnt⟩ := s
  simp only at h
  subst h
  refine ⟨by simp [aquery], ?_, by simp [searchBM25]⟩
  cases index <;> cases emb <;> simp [searchVector]

/-- C4 (witness): the empty-store behavior evaluated on a concretely
constructed empty store. -/
theorem empty_store_query_witness :
    aquery (loadStore [] none) 6000 [] [] (fun _ => "ignored") "q" "hybrid" 4 =
      ⟨"Database is empty. Build the database first.", [], []⟩ ∧
    searchVector (loadStore [] none) [] 4 = [] ∧
    searchBM25 (loadStore [] none) [] 4 = [] :=
  empty_store_query (loadStore [] none) rfl 6000 [] [] (fun _ => "ignored") "q" "hybrid" 4 4

/-- C5: `_extract_query_keywords` is total (the embedding is a total Lean
function for every model-output string and every behavior of the external
`json.loads`), and whenever the cleaned model output fails to parse as
JSON it returns exactly the fallback
`{"high_level_keywords": [query], "low_level_keywords": []}`. -/
theorem keyword_extraction_fallback (parse : String → Option PyVal) (query content : String)
    (h : parse (cleanLLMJson content) = none) :
    extractQueryKeywords parse query content = kwFallback query := by
  simp [extractQueryKeywords, h]

/-- C5 (witness): the fallback on a concrete unparsable output. -/
theorem keyword_extraction_fallback_witness :
    extractQueryKeywords (fun _ => none) "who is AURA" "```json nonsense" =
      kwFallback "who is AURA" :=
  keyword_extraction_fallback (fun _ => none) "who is AURA" "```json nonsense" rfl

/-- C6: the assembled context never exceeds the configured budget plus the
truncation marker's length, and when the separator-joined hit texts fit the
budget the context is exactly that join. -/
theorem context_bounding (budget : Nat) (parts : List String) :
    (assembleContext budget parts).length ≤ budget + TRUNC_MARKER.length ∧
    ((String.intercalate CTX_SEP parts).length ≤ budget →
      assembleContext budget parts = String.intercalate CTX_SEP parts) := by
  constructor
  · rw [assembleContext, truncateCtx]
    split
    · rw [String.length_append]
      have := length_pyTake (String.intercalate CTX_SEP parts) budget
      omega
    · omega
  · intro h
    rw [assembleContext, truncateCtx, if_neg (by omega)]

/-- C6 (witness): the bound and the no-truncation case evaluated at a
concrete budget and hit list. -/
theorem context_bounding_witness :
    (assembleContext 6000 ["alpha", "beta"]).length ≤ 6000 + TRUNC_MARKER.length ∧
    ((String.intercalate CTX_SEP ["alpha", "beta"]).length ≤ 6000 →
      assembleContext 6000 ["alpha", "beta"] = String.intercalate CTX_SEP ["alpha", "beta"]) :=
  context_bounding 6000 ["alpha", "beta"]

/-- C8 (code bug): the metadata/embedding alignment invariant holds right
after construction — a persisted matrix whose row count mismatches the
metadata is discarded — but it is *not* preserved by `ainsert`: inserting
into a store that holds one metadata row and no embedding matrix creates a
one-row matrix next to two metadata rows, leaving the vector index
misaligned with the rows it is used to address. -/
theorem alignment_broken_by_insert :
    alignedB (loadStore [⟨"chunk_0_0", "hello", []⟩] none) = true ∧
    (loadStore [⟨"chunk_0_0", "hello", []⟩] none).rows.length = 1 ∧
    alignedB (ainsert (loadStore [⟨"chunk_0_0", "hello", []⟩] none) 5 "world" [] [1]) = false ∧
    (ainsert (loadStore [⟨"chunk_0_0", "hello", []⟩] none) 5 "world" [] [1]).emb = some [[1]] ∧
    (ainsert (loadStore [⟨"chunk_0_0", "hello", []⟩] none) 5 "world" [] [1]).rows.length = 2 :=
  ⟨rfl, rfl, rfl, rfl, rfl⟩

/-- C7: `_search_vector` returns `(index, score)` pairs whose scores are the
inner products of the normalized query with the stored (normalized) vectors
— i.e. cosine similarities — sorted in strictly descending score order with
ties broken by ascending insertion index (earlier-inserted chunk first). -/
theorem vector_search_ordering (s : Store) (qn : Vec) (topK : Nat) (ix : List Vec)
    (hix : s.index = some ix) :
    List.Pairwise strictDesc (searchVector s qn topK) ∧
    ∀ p ∈ searchVector s qn topK, p.1 < ix.length ∧ p.2 = dotQ qn (ix.getD p.1 []) := by
  obtain ⟨rows, emb, index, toks, bm, cnt⟩ := s
  simp only at hix
  subst hix
  cases emb with
  | none =>
    have h : searchVector ⟨rows, none, some ix, toks, bm, cnt⟩ qn topK = [] := rfl
    simp [h]
  | some m =>
    have h : searchVector ⟨rows, some m, some ix, toks, bm, cnt⟩ qn topK =
        if rows.length = 0 then [] else faissSearchTopK ix qn (max 1 topK) := rfl
    by_cases hrows : rows.length = 0
    · rw [h, if_pos hrows]
      simp
    · rw [h, if_neg hrows]
      exact faissSearchTopK_spec ix qn (max 1 topK)

/-- C7 (witness): the ordering property evaluated on a concrete two-chunk
store. -/
theorem vector_search_ordering_witness :
    List.Pairwise strictDesc
      (searchVector (loadStore [⟨"a", "t", []⟩, ⟨"b", "u", []⟩] (some [[1, 0], [0, 1]])) [1, 0] 5) ∧
    ∀ p ∈ searchVector (loadStore [⟨"a", "t", []⟩, ⟨"b", "u", []⟩] (some [[1, 0], [0, 1]])) [1, 0] 5,
      p.1 < ([[1, 0], [0, 1]] : List Vec).length ∧
      p.2 = dotQ [1, 0] (([[1, 0], [0, 1]] : List Vec).getD p.1 []) :=
  vector_search_ordering (loadStore [⟨"a", "t", []⟩, ⟨"b", "u", []⟩] (some [[1, 0], [0, 1]]))
    [1, 0] 5 [[1, 0], [0, 1]] rfl

/-- C1: a sequence of entity insertions from the empty graph never raises,
produces exactly one node per distinct entity name (node count = number of
distinct names), and each inserted name carries the space-joined,
order-preserving concatenation of every description inserted under it. -/
theorem graph_merge_on_insert (es : List EntityIns) (n : String)
    (hn : n ∈ es.map EntityIns.name) :
    ∃ (g : Graph) (ty : String),
      insertEntities Graph.empty es = .ok g ∧
      g.nodes.length = (es.map EntityIns.name).toFinset.card ∧
      g.findNode n = some ⟨some ty, some (joinSpace (descsFor es n))⟩ := by
  have hrun := insertEntities_run es [] [] (by intro p hp; cases hp)
  obtain ⟨ty, hfind⟩ := (entityBuilt_find es n).2 hn
  refine ⟨⟨es.foldl entityStep [], []⟩, ty, hrun, entityBuilt_length es, ?_⟩
  show ((es.foldl entityStep []).find? (fun p => p.1 == n)).map (fun p => p.2) = _
  rw [hfind]
  rfl

/-- C1 (witness): the merge property on a concrete insertion sequence with
a repeated name. -/
theorem graph_merge_on_insert_witness :
    ∃ (g : Graph) (ty : String),
      insertEntities Graph.empty
        [⟨"Alice", "person", "works at Acme"⟩, ⟨"Acme", "organization", "a company"⟩,
          ⟨"Alice", "person", "lives in Springfield"⟩] = .ok g ∧
      g.nodes.length = (([⟨"Alice", "person", "works at Acme"⟩,
          ⟨"Acme", "organization", "a company"⟩,
          ⟨"Alice", "person", "lives in Springfield"⟩] : List EntityIns).map
            EntityIns.name).toFinset.card ∧
      g.findNode "Alice" = some ⟨some ty, some (joinSpace (descsFor
        [⟨"Alice", "person", "works at Acme"⟩, ⟨"Acme", "organization", "a company"⟩,
          ⟨"Alice", "person", "lives in Springfield"⟩] "Alice"))⟩ :=
  graph_merge_on_insert _ "Alice" (by decide)

/-- C2: in hybrid mode every returned candidate's fused score is
`0.75 * vec + 0.25 * bm/(|bm| + 8)` — the vector term `0` when the chunk is
not a vector hit and the normalized keyword term `0` when it is not a BM25
hit — and the returned list is the top-k of the candidate set by fused
score in descending order (every candidate scoring strictly higher than a
returned one is itself returned). -/
theorem hybrid_fusion (vecHits bmHits : List (Nat × ℚ)) (k : Nat)
    (hv : (vecHits.map Prod.fst).Nodup) (hb : (bmHits.map Prod.fst).Nodup) :
    (∀ p ∈ topScored "hybrid" vecHits bmHits k,
      p.1 = (0.75 : ℚ) * hitScoreOf vecHits p.2 + (0.25 : ℚ) * bmNorm (hitScoreOf bmHits p.2)) ∧
    List.Pairwise (fun a b : ℚ × Nat => b.1 ≤ a.1) (topScored "hybrid" vecHits bmHits k) ∧
    (topScored "hybrid" vecHits bmHits k).length = min k (buildCandidates vecHits bmHits).length ∧
    (∀ q ∈ scoredList "hybrid" vecHits bmHits,
      (∃ p ∈ topScored "hybrid" vecHits bmHits k, p.1 < q.1) →
        q ∈ topScored "hybrid" vecHits bmHits k) := by
  have hperm := List.mergeSort_perm (scoredList "hybrid" vecHits bmHits) scoreGE
  have hsorted := List.sorted_mergeSort scoreGE_trans scoreGE_total
    (scoredList "hybrid" vecHits bmHits)
  refine ⟨?_, ?_, ?_, ?_⟩
  · intro p hp
    have hmem : p ∈ scoredList "hybrid" vecHits bmHits :=
      hperm.mem_iff.mp (List.mem_of_mem_take hp)
    rcases List.mem_map.mp hmem with ⟨c, hc, rfl⟩
    obtain ⟨h1, h2⟩ := buildCandidates_mem vecHits bmHits hv hb c hc
    simp only [hitScoreOf]
    rw [← h1, ← h2]
    simp [fusedTotal]
  · exact (hsorted.imp (by
      intro a b h
      simpa [scoreGE, decide_eq_true_eq] using h)).sublist (List.take_sublist k _)
  · rw [topScored, List.length_take, List.length_mergeSort, scoredList, List.length_map]
  · rintro q hq ⟨p, hp, hpq⟩
    have hqL : q ∈ (scoredList "hybrid" vecHits bmHits).mergeSort scoreGE :=
      List.mem_mergeSort.mpr hq
    rcases List.mem_append.mp
        ((List.take_append_drop k ((scoredList "hybrid" vecHits bmHits).mergeSort scoreGE)) ▸ hqL)
      with h | h
    · exact h
    · exfalso
      have hpair := hsorted
      rw [← List.take_append_drop k ((scoredList "hybrid" vecHits bmHits).mergeSort scoreGE)]
        at hpair
      have hcross := (List.pairwise_append.mp hpair).2.2 p hp q h
      simp only [scoreGE, decide_eq_true_eq] at hcross
      exact absurd hpq (not_lt.mpr hcross)

/-- C2 (witness): the fusion property evaluated on concrete hit lists
(chunk 0 vector-only, chunk 1 in both, chunk 2 BM25-only). -/
theorem hybrid_fusion_witness :
    (∀ p ∈ topScored "hybrid" [(0, 1/2), (1, 1/4)] [(1, 2), (2, 3)] 2,
      p.1 = (0.75 : ℚ) * hitScoreOf [(0, 1/2), (1, 1/4)] p.2 +
        (0.25 : ℚ) * bmNorm (hitScoreOf [(1, 2), (2, 3)] p.2)) ∧
    List.Pairwise (fun a b : ℚ × Nat => b.1 ≤ a.1)
      (topScored "hybrid" [(0, 1/2), (1, 1/4)] [(1, 2), (2, 3)] 2) ∧
    (topScored "hybrid" [(0, 1/2), (1, 1/4)] [(1, 2), (2, 3)] 2).length =
      min 2 (buildCandidates [(0, 1/2), (1, 1/4)] [(1, 2), (2, 3)]).length ∧
    (∀ q ∈ scoredList "hybrid" [(0, 1/2), (1, 1/4)] [(1, 2), (2, 3)],
      (∃ p ∈ topScored "hybrid" [(0, 1/2), (1, 1/4)] [(1, 2), (2, 3)] 2, p.1 < q.1) →
        q ∈ topScored "hybrid" [(0, 1/2), (1, 1/4)] [(1, 2), (2, 3)] 2) :=
  hybrid_fusion [(0, 1/2), (1, 1/4)] [(1, 2), (2, 3)] 2 (by decide) (by decide)

/-- C9 (code bug): `_parse_and_insert_graph_data` does raise on some raw
model outputs.  Malformed fragments are indeed skipped with the graph left
unchanged (second conjunct), but a well-formed entity record whose name was
first introduced as a relationship endpoint hits
`graph.nodes[name]['description'] +=` on a node that `add_edge` auto-created
without a `description` attribute, raising `KeyError` (first conjunct). -/
theorem extraction_parse_raises :
    parseAndInsertGraphData Graph.empty
      "(\"relationship\"|\"A\"|\"B\"|\"d\"|\"k\")##(\"entity\"|\"A\"|\"person\"|\"x\")" =
      .error "KeyError: description" ∧
    parseAndInsertGraphData Graph.empty
      "(\"entity\"|\"A\"|\"person\"|\"d1\")##junk## not|a|record ##(\"entity\"|\"A\"|\"geo\"|\"d2\")" =
      .ok ⟨[("A", ⟨some "person", some "d1 d2"⟩)], []⟩ :=
  ⟨rfl, rfl⟩

/-- C10: under the precondition `overlap < max_chars`, `_chunk_text`
terminates (its loop never exhausts the given fuel), every returned chunk is
non-empty and at most `max_chars` characters long, and the result is the
empty list exactly when the input is empty or whitespace-only. -/
theorem chunker_termination_and_bounds (t : List Char) (maxChars overlap : Nat)
    (h : overlap < maxChars) :
    ∃ cs, chunkText t maxChars overlap = some cs ∧
      (∀ c ∈ cs, c ≠ [] ∧ c.length ≤ maxChars) ∧
      (cs = [] ↔ t.all Char.isWhitespace = true) := by
  by_cases he : (stripWs (replaceCR (replaceCRLF t))).isEmpty
  · refine ⟨[], ?_, by simp, ?_⟩
    · rw [chunkText]
      simp only [he, if_pos]
    · simp only [true_iff]
      rw [List.isEmpty_iff] at he
      have hall := (stripBoth_eq_nil_iff Char.isWhitespace _).mp he
      have h1 : (replaceCR (replaceCRLF t)).all Char.isWhitespace = true :=
        List.all_eq_true.mpr hall
      rw [replaceCR_all_ws, replaceCRLF_all_ws] at h1
      exact h1
  · obtain ⟨c0, r, ht⟩ : ∃ c0 r, stripWs (replaceCR (replaceCRLF t)) = c0 :: r := by
      rcases hl : stripWs (replaceCR (replaceCRLF t)) with _ | ⟨c0, r⟩
      · rw [hl] at he; simp at he
      · exact ⟨c0, r, rfl⟩
    obtain ⟨cs, hcs⟩ := chunkGo_total (stripWs (replaceCR (replaceCRLF t))) maxChars overlap h
      ((stripWs (replaceCR (replaceCRLF t))).length + 1) 0 (by omega)
    refine ⟨cs, ?_, chunkGo_bounds _ _ _ _ _ _ hcs, ?_⟩
    · rw [chunkText]
      simp only [he, if_neg, Bool.false_eq_true, not_false_iff]
      exact hcs
    · have hne := chunkGo_ne_nil _ maxChars overlap c0 r ht
        (head_stripBoth_not Char.isWhitespace _ c0 r ht) (by omega) _ cs hcs
      constructor
      · intro h'; exact absurd h' hne
      · intro hall
        exfalso
        have h1 : (replaceCR (replaceCRLF t)).all Char.isWhitespace = true := by
          rw [replaceCR_all_ws, replaceCRLF_all_ws]; exact hall
        have h2 : stripWs (replaceCR (replaceCRLF t)) = [] :=
          (stripBoth_eq_nil_iff Char.isWhitespace _).mpr (List.all_eq_true.mp h1)
        rw [h2] at ht
        cases ht

/-- C10 (witness): the chunker property at the default parameters on a
concrete input. -/
theorem chunker_termination_and_bounds_witness :
    250 < 2400 ∧
    ∃ cs, chunkText "ab cd".toList 2400 250 = some cs ∧
      (∀ c ∈ cs, c ≠ [] ∧ c.length ≤ 2400) ∧
      (cs = [] ↔ "ab cd".toList.all Char.isWhitespace = true) :=
  ⟨by decide, chunker_termination_and_bounds "ab cd".toList 2400 250 (by decide)⟩

end AURA
